import Mathlib

/-!
Verification of the recursive dependency-graph builder of GoCallTracer
(`internal/tracer/tracer.go`), as a shallow embedding.

The embedding translates the Go source faithfully:
* `types.Func` / `types.TypeName` objects become `FuncSym` / `TypeSym`,
  carrying the owning package path, the fully qualified name
  (`(*types.Func).FullName()`, resp. the `pkgPath.Name` key built by
  `performRecursiveAnalysis`) and the declaration position.
* A function body is the pre-order sequence of identifier resolutions that
  `ast.Walk` feeds to `resultCollector.Visit`: each element is the result of
  `Info.ObjectOf(ident)`, where `none` stands for a `nil` object or an object
  with a `nil` package (both are skipped by `Visit`).  A `FuncDecl` whose Go
  `Body` field is `nil` has `body = none`; `ast.Walk` applied to such a typed
  nil `*ast.BlockStmt` dereferences a nil pointer (`n.List`) and panics, which
  the model renders as the `LoopResult.panicked` outcome.
* Go maps keyed by strings are modelled as insertion-ordered association
  lists for their *contents*; `range` iteration over a Go map yields the
  entries in an unspecified order, modelled by the relation `goMapRange`
  (any permutation of the stored entries is a possible iteration) and by
  explicit iteration-order arguments on the report-building functions.
* `format.Node` on a located declaration is modelled as returning the
  declaration's stored canonical text (`src` field); for well-formed parsed
  declarations it does not fail.
* `findFuncDeclAt` searches the files of one package for a `FuncDecl` whose
  name token sits at the given position; since positions are unique within a
  `FileSet`, the per-file span check of the source collapses to a search over
  the package's declarations.
-/

namespace GoCallTracer

/-- A resolved `*types.Func`: owning package path (`Pkg().Path()`),
fully qualified name (`FullName()`), declaration position (`Pos()`). -/
structure FuncSym where
  pkgPath : String
  fullName : String
  pos : Nat
  deriving DecidableEq, Repr

/-- A resolved `*types.TypeName`: owning package path, local name, position. -/
structure TypeSym where
  pkgPath : String
  name : String
  pos : Nat
  deriving DecidableEq, Repr

/-- The object an identifier resolves to (`Info.ObjectOf`), when it is
non-nil and has a non-nil package: a function, a type name, or any other
object kind (variable, constant, ...) with its package path. -/
inductive Obj where
  | funcObj : FuncSym → Obj
  | typeObj : TypeSym → Obj
  | otherObj : String → Obj
  deriving DecidableEq, Repr

/-- `obj.Pkg().Path()`. -/
def Obj.pkgPath : Obj → String
  | .funcObj f => f.pkgPath
  | .typeObj t => t.pkgPath
  | .otherObj p => p

/-- An `*ast.FuncDecl` together with the semantic facts the tracer reads off
it: its local name (`Name.Name`), the position of its name token
(`Name.Pos()`), the file it is declared in, its `format.Node` rendering, the
resolution of its name (`TypesInfo.ObjectOf(Fn.Name)`, `none` for nil), and
its body — `none` when the Go `Body` field is nil (a forward declaration). -/
structure FuncDecl where
  name : String
  namePos : Nat
  fileName : String
  src : String
  nameObj : Option FuncSym
  body : Option (List (Option Obj))
  deriving DecidableEq, Repr

/-- An `*ast.TypeSpec`: name-token position, declaring file, and the
`format.Node` rendering used by `getTypeSourceSnippet` (including the
enclosing grouped `GenDecl`, when there is one). -/
structure TypeDecl where
  namePos : Nat
  fileName : String
  src : String
  deriving DecidableEq, Repr

/-- A loaded `*packages.Package`: its `PkgPath`, whether its `Types` field is
non-nil, the `FuncDecl`s of its parsed files, and their `TypeSpec`s. -/
structure Package where
  pkgPath : String
  hasTypes : Bool
  decls : List FuncDecl
  typeDecls : List TypeDecl
  deriving DecidableEq, Repr

/-- `AnalysisTarget` from `types.go`: an owning package and a declaration. -/
structure AnalysisTarget where
  pkg : Package
  fn : FuncDecl
  deriving DecidableEq, Repr

/-- `AnalysisTask` from `types.go`: a target plus its BFS depth. -/
structure AnalysisTask where
  target : AnalysisTarget
  depth : Int
  deriving DecidableEq, Repr

/-- The two ordered sequences accumulated by `resultCollector`. -/
structure CollectorResult where
  calledFuncs : List FuncSym
  referencedTypes : List TypeSym
  deriving DecidableEq, Repr

/-- `ast.Walk(resultCollector, body)`: every identifier is resolved; nil
objects and objects with nil packages are skipped; objects whose package is
outside the project-package set are skipped; `*types.Func`s are appended to
`CalledFuncs` and `*types.TypeName`s to `ReferencedTypes`, in walk order. -/
def runCollector (pp : List String) : List (Option Obj) → CollectorResult
  | [] => ⟨[], []⟩
  | none :: rest => runCollector pp rest
  | some o :: rest =>
    if pp.contains o.pkgPath then
      match o with
      | .funcObj f =>
        ⟨f :: (runCollector pp rest).calledFuncs,
          (runCollector pp rest).referencedTypes⟩
      | .typeObj t =>
        ⟨(runCollector pp rest).calledFuncs,
          t :: (runCollector pp rest).referencedTypes⟩
      | .otherObj _ => runCollector pp rest
    else runCollector pp rest

/-- `findFuncDeclAt`: the `FuncDecl` of the package whose name token is at
`pos` (positions are unique, so the file-span pre-check of the source is
subsumed by the search). -/
def findFuncDeclAt (pkg : Package) (pos : Nat) : Option FuncDecl :=
  pkg.decls.find? (fun d => d.namePos == pos)

/-- The `typePkgMap` lookup: the loaded package (with non-nil `Types`) whose
`Types` pointer is the given `*types.Package` — identified by its path. -/
def typePkgLookup (pkgs : List Package) (path : String) : Option Package :=
  (pkgs.filter (fun p => p.hasTypes)).find? (fun p => p.pkgPath == path)

/-- The key `fmt.Sprintf("%s.%s", typeObj.Pkg().Path(), typeObj.Name())`. -/
def typeKey (t : TypeSym) : String := t.pkgPath ++ "." ++ t.name

/-- `_, exists := m[k]` on an association-list-modelled Go map. -/
def lookupKey (l : List (String × α)) (k : String) : Bool :=
  l.any (fun kv => kv.1 == k)

/-- The expansion attempt for one first-discovered callable: while
`task.Depth < maxDepth` and the callable is project-owned, look its package
up in `typePkgMap` (`continue` on a miss), locate its declaration with
`findFuncDeclAt` (skip silently when `nil`), and append a task at depth
`task.Depth + 1`. -/
def enqueueStep (pkgs : List Package) (pp : List String) (maxDepth taskDepth : Int)
    (f : FuncSym) (q : List AnalysisTask) : List AnalysisTask :=
  if decide (taskDepth < maxDepth) && pp.contains f.pkgPath then
    match typePkgLookup pkgs f.pkgPath with
    | none => q
    | some defPkg =>
      match findFuncDeclAt defPkg f.pos with
      | none => q
      | some defNode => q ++ [⟨⟨defPkg, defNode⟩, taskDepth + 1⟩]
  else q

/-- The loop body over `collector.CalledFuncs`: record each first-discovered
callable in `allCalledFuncs` and attempt to enqueue it for expansion; a
callable already present is left alone (and never enqueued). -/
def expandFuncs (pkgs : List Package) (pp : List String) (maxDepth taskDepth : Int) :
    List FuncSym → List (String × FuncSym) → List AnalysisTask →
    List (String × FuncSym) × List AnalysisTask
  | [], accF, q => (accF, q)
  | f :: rest, accF, q =>
    if lookupKey accF f.fullName then
      expandFuncs pkgs pp maxDepth taskDepth rest accF q
    else
      expandFuncs pkgs pp maxDepth taskDepth rest (accF ++ [(f.fullName, f)])
        (enqueueStep pkgs pp maxDepth taskDepth f q)

/-- The loop over `collector.ReferencedTypes`: record each first-discovered
type under its qualified key; types are never enqueued. -/
def recordTypes : List TypeSym → List (String × TypeSym) → List (String × TypeSym)
  | [], accT => accT
  | t :: rest, accT =>
    if lookupKey accT (typeKey t) then recordTypes rest accT
    else recordTypes rest (accT ++ [(typeKey t, t)])

/-- Outcome of the BFS loop: fuel exhaustion (the loop is still running),
a runtime panic (nil-body dereference), or normal completion with the final
`processedFuncs` insertion order and the two result maps as
insertion-ordered association lists. -/
inductive LoopResult where
  | outOfFuel
  | panicked
  | done : List String → List (String × FuncSym) → List (String × TypeSym) → LoopResult
  deriving DecidableEq, Repr

/-- The `for len(queue) > 0` loop of `performRecursiveAnalysis`, with an
explicit fuel parameter standing for the number of remaining iterations. -/
def traceLoop (pkgs : List Package) (pp : List String) (maxDepth : Int) :
    Nat → List AnalysisTask → List String → List (String × FuncSym) →
    List (String × TypeSym) → LoopResult
  | _, [], processed, accF, accT => .done processed accF accT
  | 0, _ :: _, _, _, _ => .outOfFuel
  | fuel + 1, task :: rest, processed, accF, accT =>
    match task.target.fn.nameObj with
    | none => traceLoop pkgs pp maxDepth fuel rest processed accF accT
    | some fnObj =>
      if processed.contains fnObj.fullName then
        traceLoop pkgs pp maxDepth fuel rest processed accF accT
      else
        match task.target.fn.body with
        | none => .panicked
        | some b =>
          traceLoop pkgs pp maxDepth fuel
            (expandFuncs pkgs pp maxDepth task.depth
              (runCollector pp b).calledFuncs accF rest).2
            (processed ++ [fnObj.fullName])
            (expandFuncs pkgs pp maxDepth task.depth
              (runCollector pp b).calledFuncs accF rest).1
            (recordTypes (runCollector pp b).referencedTypes accT)

/-- The `projectPackages` set: the `PkgPath` of every loaded package. -/
def projectPackagesOf (pkgs : List Package) : List String :=
  pkgs.map (fun p => p.pkgPath)

/-- `performRecursiveAnalysis(initialTarget, depth, pkgs)`: seed the queue
with the target at depth 0 and run the loop. -/
def performRecursiveAnalysis (t : AnalysisTarget) (maxDepth : Int)
    (pkgs : List Package) (fuel : Nat) : LoopResult :=
  traceLoop pkgs (projectPackagesOf pkgs) maxDepth fuel [⟨t, 0⟩] [] [] []

/-- Callable result keys of a completed run, in map-insertion order. -/
def calledKeys : LoopResult → List String
  | .done _ accF _ => accF.map Prod.fst
  | _ => []

/-- Type result keys of a completed run, in map-insertion order. -/
def typeResultKeys : LoopResult → List String
  | .done _ _ accT => accT.map Prod.fst
  | _ => []

/-- A `range` iteration over a Go map yields the stored entries in an
unspecified order: any permutation is a possible iteration. -/
def goMapRange (entries iter : List (String × α)) : Prop :=
  iter.Perm entries

/-- `getFuncSourceSnippet`: locate the `FuncDecl` at `pos` and render it
(`format.Node` succeeds on a well-formed located declaration). -/
def getFuncSourceSnippet (pkg : Package) (pos : Nat) : Except String String :=
  match findFuncDeclAt pkg pos with
  | some d => .ok d.src
  | none => .error ("could not find FuncDecl node at position " ++ toString pos)

/-- The `TypeSpec` search of `getTypeSourceSnippet`. -/
def findTypeSpecAt (pkg : Package) (pos : Nat) : Option TypeDecl :=
  pkg.typeDecls.find? (fun d => d.namePos == pos)

/-- `getTypeSourceSnippet`: locate the `TypeSpec` at `pos` and render it
(the stored `src` already reflects the enclosing grouped declaration). -/
def getTypeSourceSnippet (pkg : Package) (pos : Nat) : Except String String :=
  match findTypeSpecAt pkg pos with
  | some d => .ok d.src
  | none => .error ("could not find TypeSpec node at position " ++ toString pos)

/-- One dependency block of the snippets section for a called function:
the `typePkgMap` miss hits `continue`, a failed `getFuncSourceSnippet`
(`err != nil`) skips the block — in both cases nothing is written. -/
def funcSnippetBlock (pkgs : List Package) (name : String) (f : FuncSym) :
    List String :=
  match typePkgLookup pkgs f.pkgPath with
  | none => []
  | some defPkg =>
    match findFuncDeclAt defPkg f.pos with
    | none => []
    | some d =>
      ["\n// Source for: " ++ name ++ "\n",
       "// Defined in: " ++ d.fileName ++ "\n",
       "// --------------------------------------------------\n",
       d.src ++ "\n"]

/-- The snippets section over the called-function map (in the iteration
order handed to `range`). -/
def funcSnippetChunks (pkgs : List Package) :
    List (String × FuncSym) → List String
  | [] => []
  | (n, f) :: rest => funcSnippetBlock pkgs n f ++ funcSnippetChunks pkgs rest

/-- One dependency block for a referenced type.  Here the source looks up
`typePkgMap[info.Definition.Pkg()]` **without** an ok-check; on a miss the
nil `*packages.Package` is dereferenced inside `getTypeSourceSnippet`
(ranging over `pkg.Syntax`), a runtime panic — modelled as `none`.
A failed snippet lookup (`err != nil`) skips the block. -/
def typeSnippetBlock (pkgs : List Package) (name : String) (t : TypeSym) :
    Option (List String) :=
  match typePkgLookup pkgs t.pkgPath with
  | none => none
  | some defPkg =>
    match findTypeSpecAt defPkg t.pos with
    | none => some []
    | some d =>
      some ["\n// Source for: " ++ name ++ "\n",
            "// Defined in: " ++ d.fileName ++ "\n",
            "// --------------------------------------------------\n",
            d.src ++ "\n"]

/-- The snippets section over the referenced-type map; `none` propagates a
panic. -/
def typeSnippetChunks (pkgs : List Package) :
    List (String × TypeSym) → Option (List String)
  | [] => some []
  | (n, t) :: rest =>
    match typeSnippetBlock pkgs n t with
    | none => none
    | some b =>
      match typeSnippetChunks pkgs rest with
      | none => none
      | some bs => some (b ++ bs)

/-- The report of `Analyze`, as the list of strings written to the
`strings.Builder`, one element per `WriteString` call.  The four `range`
iterations over the two result maps (summary lists and snippet sections) use
unspecified Go-map orders, passed in as `iterF1`, `iterT1`, `iterF2`,
`iterT2`.  Returns `none` if the type-snippet section panics. -/
def analyzeReportChunks (pkgs : List Package) (t : AnalysisTarget)
    (initialFile : String) (maxDepth : Int)
    (accF : List (String × FuncSym)) (accT : List (String × TypeSym))
    (iterF1 : List (String × FuncSym)) (iterT1 : List (String × TypeSym))
    (iterF2 : List (String × FuncSym)) (iterT2 : List (String × TypeSym)) :
    Option (List String) :=
  match typeSnippetChunks pkgs iterT2 with
  | none => none
  | some typeBlocks =>
    some
      (["Analysis for Function: " ++ t.fn.name ++
          " (depth=" ++ toString maxDepth ++ ")\n",
        "Defined in: " ++ initialFile ++ "\n",
        "\n--- Target Function Source Code ---\n"] ++
      (match getFuncSourceSnippet t.pkg t.fn.namePos with
        | .error e => ["// Error getting source: " ++ e ++ "\n"]
        | .ok s => [s ++ "\n"]) ++
      ["\n--- Summary of Dependencies ---\n", "Called Functions/Methods:\n"] ++
      (if accF.isEmpty then ["- None\n"]
        else iterF1.map (fun kv => "- " ++ kv.1 ++ "\n")) ++
      ["\nReferenced Types:\n"] ++
      (if accT.isEmpty then ["- None\n"]
        else iterT1.map (fun kv => "- " ++ kv.1 ++ "\n")) ++
      ["\n--- Code Snippets of Dependencies ---\n"] ++
      funcSnippetChunks pkgs iterF2 ++ typeBlocks)

/-- `performRecursiveAnalysis` as seen through its Go signature
`(*analysisResult, error)`: `none` while still running or after a panic;
its single return statement carries a `nil` error. -/
def performRecursiveAnalysisE (t : AnalysisTarget) (maxDepth : Int)
    (pkgs : List Package) (fuel : Nat) :
    Option (Except String
      (List (String × FuncSym) × List (String × TypeSym))) :=
  match performRecursiveAnalysis t maxDepth pkgs fuel with
  | .outOfFuel => none
  | .panicked => none
  | .done _ accF accT => some (.ok (accF, accT))

/-- `Analyze(initialTarget, initialFile, depth, pkgs)`: run the analysis,
propagate its error if non-nil, build the report.  `none` = has not
completed (still looping, or panicked). -/
def Analyze (t : AnalysisTarget) (initialFile : String) (maxDepth : Int)
    (pkgs : List Package) (fuel : Nat)
    (iterF1 : List (String × FuncSym)) (iterT1 : List (String × TypeSym))
    (iterF2 : List (String × FuncSym)) (iterT2 : List (String × TypeSym)) :
    Option (Except String String) :=
  match performRecursiveAnalysisE t maxDepth pkgs fuel with
  | none => none
  | some (.error e) => some (.error e)
  | some (.ok (accF, accT)) =>
    match analyzeReportChunks pkgs t initialFile maxDepth accF accT
        iterF1 iterT1 iterF2 iterT2 with
    | none => none
    | some chunks => some (.ok (String.join chunks))

/-- `AnalyzeChunks`: the report of a completed `Analyze` run, pre-joining. -/
def AnalyzeChunks (t : AnalysisTarget) (initialFile : String) (maxDepth : Int)
    (pkgs : List Package) (fuel : Nat)
    (iterF1 : List (String × FuncSym)) (iterT1 : List (String × TypeSym))
    (iterF2 : List (String × FuncSym)) (iterT2 : List (String × TypeSym)) :
    Option (List String) :=
  match performRecursiveAnalysis t maxDepth pkgs fuel with
  | .done _ accF accT =>
    analyzeReportChunks pkgs t initialFile maxDepth accF accT
      iterF1 iterT1 iterF2 iterT2
  | _ => none

/-- `ExtractCalledFuncs`: propagate a non-nil analysis error, else emit the
called-function map's keys in the Go-map iteration order `iterF`. -/
def ExtractCalledFuncs (t : AnalysisTarget) (maxDepth : Int)
    (pkgs : List Package) (fuel : Nat) (iterF : List (String × FuncSym)) :
    Option (Except String (List String)) :=
  match performRecursiveAnalysisE t maxDepth pkgs fuel with
  | none => none
  | some (.error e) => some (.error e)
  | some (.ok _) => some (.ok (iterF.map Prod.fst))

/-- `ExtractTypes`: propagate a non-nil analysis error, else emit the
type map's keys in the Go-map iteration order `iterT`. -/
def ExtractTypes (t : AnalysisTarget) (maxDepth : Int)
    (pkgs : List Package) (fuel : Nat) (iterT : List (String × TypeSym)) :
    Option (Except String (List String)) :=
  match performRecursiveAnalysisE t maxDepth pkgs fuel with
  | none => none
  | some (.error e) => some (.error e)
  | some (.ok _) => some (.ok (iterT.map Prod.fst))

/-! ### Termination measure for the BFS loop -/

/-- Length of a declaration's body (0 for a nil body). -/
def bodyLen (d : FuncDecl) : Nat := (d.body.getD []).length

/-- All function declarations of the loaded packages. -/
def declsOf (pkgs : List Package) : List FuncDecl :=
  pkgs.foldr (fun p r => p.decls ++ r) []

/-- Every declaration a task of the traversal can carry: the initial
target's declaration, or a declaration of a loaded package. -/
def universeDecls (pkgs : List Package) (t0 : AnalysisTarget) : List FuncDecl :=
  t0.fn :: declsOf pkgs

/-- The finite set of callable identities the visited set can ever hold. -/
def keyUniverse (pkgs : List Package) (t0 : AnalysisTarget) : Finset String :=
  ((universeDecls pkgs t0).filterMap
    (fun d => d.nameObj.map (fun f => f.fullName))).toFinset

/-- An upper bound on how many tasks one expansion step can enqueue. -/
def enqBound (pkgs : List Package) (t0 : AnalysisTarget) : Nat :=
  ((universeDecls pkgs t0).map bodyLen).foldr max 0

/-- Invariant of queued tasks: the task's declaration is the initial one or
comes from a loaded package (enqueued via `findFuncDeclAt`). -/
def TaskOK (pkgs : List Package) (t0 : AnalysisTarget) (task : AnalysisTask) : Prop :=
  task.target.fn = t0.fn ∨ task.target.fn ∈ declsOf pkgs

/-- Decreasing measure of the loop: identities not yet visited, weighted by
the enqueue bound, plus the queue length. -/
def loopMeasure (pkgs : List Package) (t0 : AnalysisTarget)
    (processed : List String) (queue : List AnalysisTask) : Nat :=
  (keyUniverse pkgs t0 \ processed.toFinset).card * (enqBound pkgs t0 + 1) +
    queue.length

/-! ### Concrete projects used to settle the scenario claims -/

section ConcreteProjects

/-- Scenario project (spec §8, Scenarios 1 and 2): one package `p` with
`A` calling `B` and `C` and referencing type `T`; `B` calls `D` and
references type `U`; `C` and `D` have empty bodies. -/
def scenA : FuncSym := ⟨"p", "p.A", 10⟩

def scenB : FuncSym := ⟨"p", "p.B", 20⟩

def scenC : FuncSym := ⟨"p", "p.C", 30⟩

def scenD : FuncSym := ⟨"p", "p.D", 40⟩

def scenT : TypeSym := ⟨"p", "T", 50⟩

def scenU : TypeSym := ⟨"p", "U", 60⟩

def scenDeclA : FuncDecl :=
  ⟨"A", 10, "a.go", "func A() { B(); C(); var t T }", some scenA,
    some [some (.funcObj scenB), some (.funcObj scenC), some (.typeObj scenT)]⟩

def scenDeclB : FuncDecl :=
  ⟨"B", 20, "a.go", "func B() { D(); var u U }", some scenB,
    some [some (.funcObj scenD), some (.typeObj scenU)]⟩

def scenDeclC : FuncDecl :=
  ⟨"C", 30, "a.go", "func C() {}", some scenC, some []⟩

def scenDeclD : FuncDecl :=
  ⟨"D", 40, "a.go", "func D() {}", some scenD, some []⟩

def scenPkg : Package :=
  ⟨"p", true, [scenDeclA, scenDeclB, scenDeclC, scenDeclD],
    [⟨50, "t.go", "type T struct{}"⟩, ⟨60, "t.go", "type U struct{}"⟩]⟩

def scenPkgs : List Package := [scenPkg]

def scenTarget : AnalysisTarget := ⟨scenPkg, scenDeclA⟩

/-- Cycle project: package `c` with `A` calling `B` and `B` calling `A`. -/
def cycA : FuncSym := ⟨"c", "c.A", 1⟩

def cycB : FuncSym := ⟨"c", "c.B", 2⟩

def cycDeclA : FuncDecl :=
  ⟨"A", 1, "c.go", "func A() { B() }", some cycA, some [some (.funcObj cycB)]⟩

def cycDeclB : FuncDecl :=
  ⟨"B", 2, "c.go", "func B() { A() }", some cycB, some [some (.funcObj cycA)]⟩

def cycPkgs : List Package := [⟨"c", true, [cycDeclA, cycDeclB], []⟩]

def cycTarget : AnalysisTarget := ⟨⟨"c", true, [cycDeclA, cycDeclB], []⟩, cycDeclA⟩

/-- Name-collision project: packages `example/a` and `example/b` both declare
a function `F` and a type `X`; `Main` in `example/a` references all four. -/
def colFa : FuncSym := ⟨"example/a", "example/a.F", 100⟩

def colFb : FuncSym := ⟨"example/b", "example/b.F", 200⟩

def colMain : FuncSym := ⟨"example/a", "example/a.Main", 90⟩

def colXa : TypeSym := ⟨"example/a", "X", 110⟩

def colXb : TypeSym := ⟨"example/b", "X", 210⟩

def colDeclMain : FuncDecl :=
  ⟨"Main", 90, "main.go", "func Main() { a.F(); b.F() }", some colMain,
    some [some (.funcObj colFa), some (.funcObj colFb),
          some (.typeObj colXa), some (.typeObj colXb)]⟩

def colDeclFa : FuncDecl := ⟨"F", 100, "a.go", "func F() {}", some colFa, some []⟩

def colDeclFb : FuncDecl := ⟨"F", 200, "b.go", "func F() {}", some colFb, some []⟩

def colPkgs : List Package :=
  [⟨"example/a", true, [colDeclMain, colDeclFa], [⟨110, "a.go", "type X int"⟩]⟩,
   ⟨"example/b", true, [colDeclFb], [⟨210, "b.go", "type X string"⟩]⟩]

def colTarget : AnalysisTarget :=
  ⟨⟨"example/a", true, [colDeclMain, colDeclFa], [⟨110, "a.go", "type X int"⟩]⟩,
    colDeclMain⟩

/-- Leaves project: package `q`, where both `A` and `B` reference type `S`. -/
def lvA : FuncSym := ⟨"q", "q.A", 1⟩

def lvB : FuncSym := ⟨"q", "q.B", 2⟩

def lvS : TypeSym := ⟨"q", "S", 7⟩

def lvDeclA : FuncDecl :=
  ⟨"A", 1, "q.go", "func A() { var s S; B() }", some lvA,
    some [some (.typeObj lvS), some (.funcObj lvB)]⟩

def lvDeclB : FuncDecl :=
  ⟨"B", 2, "q.go", "func B() { var s S }", some lvB, some [some (.typeObj lvS)]⟩

def lvPkgs : List Package :=
  [⟨"q", true, [lvDeclA, lvDeclB], [⟨7, "q.go", "type S struct{}"⟩]⟩]

def lvTarget : AnalysisTarget :=
  ⟨⟨"q", true, [lvDeclA, lvDeclB], [⟨7, "q.go", "type S struct{}"⟩]⟩, lvDeclA⟩

/-- No-body project: package `x` with a forward-declared (assembly-backed)
function `External`, whose `*ast.FuncDecl` has a nil `Body`. -/
def extSym : FuncSym := ⟨"x", "x.External", 5⟩

def extDecl : FuncDecl := ⟨"External", 5, "x.go", "func External()", some extSym, none⟩

def extPkgs : List Package := [⟨"x", true, [extDecl], []⟩]

def extTarget : AnalysisTarget := ⟨⟨"x", true, [extDecl], []⟩, extDecl⟩

/-- Degradation project: `m.Root` calls `q.Ghost`; package `q` is in the
loaded package set (so `Ghost` is project-owned and gets discovered) but its
syntax holds no declarations, so `Ghost`'s declaration cannot be located. -/
def ghost : FuncSym := ⟨"q", "q.Ghost", 77⟩

def rootSym : FuncSym := ⟨"m", "m.Root", 1⟩

def rootDecl : FuncDecl :=
  ⟨"Root", 1, "root.go", "func Root() { q.Ghost() }", some rootSym,
    some [some (.funcObj ghost)]⟩

def degPkgs : List Package :=
  [⟨"m", true, [rootDecl], []⟩, ⟨"q", true, [], []⟩]

def degTarget : AnalysisTarget := ⟨⟨"m", true, [rootDecl], []⟩, rootDecl⟩

/-- Order project: `p2.Main` calls `p2.B` and then `p2.C`. -/
def ordB : FuncSym := ⟨"p2", "p2.B", 2⟩

def ordC : FuncSym := ⟨"p2", "p2.C", 3⟩

def ordMain : FuncSym := ⟨"p2", "p2.Main", 1⟩

def ordDeclMain : FuncDecl :=
  ⟨"Main", 1, "p2.go", "func Main() { B(); C() }", some ordMain,
    some [some (.funcObj ordB), some (.funcObj ordC)]⟩

def ordPkgs : List Package := [⟨"p2", true, [ordDeclMain], []⟩]

def ordTarget : AnalysisTarget := ⟨⟨"p2", true, [ordDeclMain], []⟩, ordDeclMain⟩

/-- The discovered callable map of the order project at `maxDepth = 0`. -/
def ordAcc : List (String × FuncSym) := [("p2.B", ordB), ("p2.C", ordC)]

/-- One possible Go-map iteration order: insertion order. -/
def ordIterBC : List (String × FuncSym) := [("p2.B", ordB), ("p2.C", ordC)]

/-- Another possible Go-map iteration order: the reverse. -/
def ordIterCB : List (String × FuncSym) := [("p2.C", ordC), ("p2.B", ordB)]

end ConcreteProjects

/-! ### Helper lemmas -/

theorem lookupKey_iff {α : Type} (l : List (String × α)) (k : String) :
    lookupKey l k = true ↔ k ∈ l.map Prod.fst := by
  simp only [lookupKey, List.any_eq_true, List.mem_map, beq_iff_eq]

theorem runCollector_calledFuncs_pp (pp : List String) :
    ∀ (b : List (Option Obj)), ∀ f ∈ (runCollector pp b).calledFuncs,
      f.pkgPath ∈ pp := by
  intro b
  induction b with
  | nil => simp [runCollector]
  | cons r rest ih =>
    intro f hf
    match r with
    | none => exact ih f hf
    | some o =>
      by_cases hpp : o.pkgPath ∈ pp
      · match o with
        | .funcObj g =>
          simp only [runCollector, Obj.pkgPath] at hf hpp
          rw [if_pos (by simpa using hpp)] at hf
          rcases List.mem_cons.mp hf with rfl | hf
          · exact hpp
          · exact ih f hf
        | .typeObj t =>
          simp only [runCollector, Obj.pkgPath] at hf hpp
          rw [if_pos (by simpa using hpp)] at hf
          exact ih f hf
        | .otherObj p =>
          simp only [runCollector, Obj.pkgPath] at hf hpp
          rw [if_pos (by simpa using hpp)] at hf
          exact ih f hf
      · simp only [runCollector] at hf
        rw [if_neg (by simpa using hpp)] at hf
        exact ih f hf

theorem runCollector_referencedTypes_pp (pp : List String) :
    ∀ (b : List (Option Obj)), ∀ t ∈ (runCollector pp b).referencedTypes,
      t.pkgPath ∈ pp := by
  intro b
  induction b with
  | nil => simp [runCollector]
  | cons r rest ih =>
    intro t ht
    match r with
    | none => exact ih t ht
    | some o =>
      by_cases hpp : o.pkgPath ∈ pp
      · match o with
        | .funcObj g =>
          simp only [runCollector, Obj.pkgPath] at ht hpp
          rw [if_pos (by simpa using hpp)] at ht
          exact ih t ht
        | .typeObj u =>
          simp only [runCollector, Obj.pkgPath] at ht hpp
          rw [if_pos (by simpa using hpp)] at ht
          rcases List.mem_cons.mp ht with rfl | ht
          · exact hpp
          · exact ih t ht
        | .otherObj p =>
          simp only [runCollector, Obj.pkgPath] at ht hpp
          rw [if_pos (by simpa using hpp)] at ht
          exact ih t ht
      · simp only [runCollector] at ht
        rw [if_neg (by simpa using hpp)] at ht
        exact ih t ht

theorem runCollector_calledFuncs_length (pp : List String) :
    ∀ (b : List (Option Obj)),
      (runCollector pp b).calledFuncs.length ≤ b.length := by
  intro b
  induction b with
  | nil => simp [runCollector]
  | cons r rest ih =>
    match r with
    | none => exact le_trans ih (Nat.le_succ _)
    | some o =>
      by_cases hpp : o.pkgPath ∈ pp
      · match o with
        | .funcObj g =>
          simp only [runCollector]
          rw [if_pos (by simpa using hpp)]
          exact Nat.succ_le_succ ih
        | .typeObj t =>
          simp only [runCollector]
          rw [if_pos (by simpa using hpp)]
          exact le_trans ih (Nat.le_succ _)
        | .otherObj p =>
          simp only [runCollector]
          rw [if_pos (by simpa using hpp)]
          exact le_trans ih (Nat.le_succ _)
      · simp only [runCollector]
        rw [if_neg (by simpa using hpp)]
        exact le_trans ih (Nat.le_succ _)

theorem mem_declsOf {pkgs : List Package} {p : Package} {d : FuncDecl}
    (hp : p ∈ pkgs) (hd : d ∈ p.decls) : d ∈ declsOf pkgs := by
  induction pkgs with
  | nil => simp at hp
  | cons q rest ih =>
    rcases List.mem_cons.mp hp with rfl | hp
    · exact List.mem_append.mpr (Or.inl hd)
    · exact List.mem_append.mpr (Or.inr (ih hp))

theorem typePkgLookup_mem {pkgs : List Package} {path : String} {p : Package}
    (h : typePkgLookup pkgs path = some p) : p ∈ pkgs :=
  (List.mem_filter.mp (List.mem_of_find?_eq_some h)).1

theorem findFuncDeclAt_mem {pkg : Package} {pos : Nat} {d : FuncDecl}
    (h : findFuncDeclAt pkg pos = some d) : d ∈ pkg.decls :=
  List.mem_of_find?_eq_some h

theorem expandFuncs_acc_mem (pkgs : List Package) (pp : List String)
    (md td : Int) :
    ∀ (fs : List FuncSym) (accF : List (String × FuncSym))
      (q : List AnalysisTask) (e : String × FuncSym),
      e ∈ (expandFuncs pkgs pp md td fs accF q).1 →
      e ∈ accF ∨ (e.2 ∈ fs ∧ e.1 = e.2.fullName) := by
  intro fs
  induction fs with
  | nil => intro accF q e he; exact Or.inl he
  | cons f rest ih =>
    intro accF q e he
    cases hk : lookupKey accF f.fullName with
    | true =>
      rw [expandFuncs, if_pos hk] at he
      rcases ih accF q e he with h | ⟨h1, h2⟩
      · exact Or.inl h
      · exact Or.inr ⟨List.mem_cons_of_mem _ h1, h2⟩
    | false =>
      rw [expandFuncs, if_neg (by simp [hk])] at he
      rcases ih _ _ e he with h | ⟨h1, h2⟩
      · rcases List.mem_append.mp h with h | h
        · exact Or.inl h
        · rcases List.mem_singleton.mp h with rfl
          exact Or.inr ⟨List.mem_cons_self _ _, rfl⟩
      · exact Or.inr ⟨List.mem_cons_of_mem _ h1, h2⟩

theorem expandFuncs_keys_iff (pkgs : List Package) (pp : List String)
    (md td : Int) :
    ∀ (fs : List FuncSym) (accF : List (String × FuncSym))
      (q : List AnalysisTask) (k : String),
      k ∈ (expandFuncs pkgs pp md td fs accF q).1.map Prod.fst ↔
        k ∈ accF.map Prod.fst ∨ k ∈ fs.map FuncSym.fullName := by
  intro fs
  induction fs with
  | nil => intro accF q k; simp [expandFuncs]
  | cons f rest ih =>
    intro accF q k
    cases hk : lookupKey accF f.fullName with
    | true =>
      rw [expandFuncs, if_pos hk]
      rw [ih]
      have hf : f.fullName ∈ accF.map Prod.fst := (lookupKey_iff _ _).mp hk
      simp only [List.map_cons, List.mem_cons]
      constructor
      · rintro (h | h)
        · exact Or.inl h
        · exact Or.inr (Or.inr h)
      · rintro (h | rfl | h)
        · exact Or.inl h
        · exact Or.inl hf
        · exact Or.inr h
    | false =>
      rw [expandFuncs, if_neg (by simp [hk])]
      rw [ih]
      simp only [List.map_append, List.map_cons, List.mem_append,
        List.mem_cons, List.map_nil, List.not_mem_nil, or_false]
      tauto

theorem expandFuncs_keys_nodup (pkgs : List Package) (pp : List String)
    (md td : Int) :
    ∀ (fs : List FuncSym) (accF : List (String × FuncSym))
      (q : List AnalysisTask),
      (accF.map Prod.fst).Nodup →
      ((expandFuncs pkgs pp md td fs accF q).1.map Prod.fst).Nodup := by
  intro fs
  induction fs with
  | nil => intro accF q h; exact h
  | cons f rest ih =>
    intro accF q h
    cases hk : lookupKey accF f.fullName with
    | true =>
      rw [expandFuncs, if_pos hk]
      exact ih accF q h
    | false =>
      rw [expandFuncs, if_neg (by simp [hk])]
      refine ih _ _ ?_
      have hf : f.fullName ∉ accF.map Prod.fst := by
        intro hmem
        rw [← lookupKey_iff accF f.fullName] at hmem
        simp [hk] at hmem
      simp only [List.map_append, List.map_cons, List.map_nil]
      exact List.Nodup.append h (List.nodup_singleton _)
        (fun a ha hb => hf (by rwa [List.mem_singleton.mp hb] at ha))

theorem enqueueStep_mem (pkgs : List Package) (pp : List String)
    (md td : Int) (f : FuncSym) (q : List AnalysisTask) (task : AnalysisTask)
    (h : task ∈ enqueueStep pkgs pp md td f q) :
    task ∈ q ∨ task.target.fn ∈ declsOf pkgs := by
  rw [enqueueStep] at h
  by_cases hc : (decide (td < md) && pp.contains f.pkgPath) = true
  · rw [if_pos hc] at h
    split at h
    · exact Or.inl h
    · next defPkg hl =>
      split at h
      · exact Or.inl h
      · next defNode hn =>
        rcases List.mem_append.mp h with h | h
        · exact Or.inl h
        · rcases List.mem_singleton.mp h with rfl
          exact Or.inr
            (mem_declsOf (typePkgLookup_mem hl) (findFuncDeclAt_mem hn))
  · rw [if_neg hc] at h
    exact Or.inl h

theorem enqueueStep_length (pkgs : List Package) (pp : List String)
    (md td : Int) (f : FuncSym) (q : List AnalysisTask) :
    (enqueueStep pkgs pp md td f q).length ≤ q.length + 1 := by
  rw [enqueueStep]
  by_cases hc : (decide (td < md) && pp.contains f.pkgPath) = true
  · rw [if_pos hc]
    split
    · omega
    · next defPkg hl =>
      split
      · omega
      · next defNode hn => simp
  · rw [if_neg hc]; omega

theorem expandFuncs_queue_mem (pkgs : List Package) (pp : List String)
    (md td : Int) :
    ∀ (fs : List FuncSym) (accF : List (String × FuncSym))
      (q : List AnalysisTask) (task : AnalysisTask),
      task ∈ (expandFuncs pkgs pp md td fs accF q).2 →
      task ∈ q ∨ task.target.fn ∈ declsOf pkgs := by
  intro fs
  induction fs with
  | nil => intro accF q task h; exact Or.inl h
  | cons f rest ih =>
    intro accF q task h
    cases hk : lookupKey accF f.fullName with
    | true =>
      rw [expandFuncs, if_pos hk] at h
      exact ih accF q task h
    | false =>
      rw [expandFuncs, if_neg (by simp [hk])] at h
      rcases ih _ _ task h with hq | hd
      · exact enqueueStep_mem pkgs pp md td f q task hq
      · exact Or.inr hd

theorem expandFuncs_queue_length (pkgs : List Package) (pp : List String)
    (md td : Int) :
    ∀ (fs : List FuncSym) (accF : List (String × FuncSym))
      (q : List AnalysisTask),
      (expandFuncs pkgs pp md td fs accF q).2.length ≤ q.length + fs.length := by
  intro fs
  induction fs with
  | nil => intro accF q; simp [expandFuncs]
  | cons f rest ih =>
    intro accF q
    cases hk : lookupKey accF f.fullName with
    | true =>
      rw [expandFuncs, if_pos hk]
      exact le_trans (ih accF q) (by simp only [List.length_cons]; omega)
    | false =>
      rw [expandFuncs, if_neg (by simp [hk])]
      have hq := enqueueStep_length pkgs pp md td f q
      exact le_trans (ih _ _) (by simp only [List.length_cons]; omega)

theorem recordTypes_mem :
    ∀ (ts : List TypeSym) (accT : List (String × TypeSym))
      (e : String × TypeSym),
      e ∈ recordTypes ts accT →
      e ∈ accT ∨ (e.2 ∈ ts ∧ e.1 = typeKey e.2) := by
  intro ts
  induction ts with
  | nil => intro accT e h; exact Or.inl h
  | cons t rest ih =>
    intro accT e h
    cases hk : lookupKey accT (typeKey t) with
    | true =>
      rw [recordTypes, if_pos hk] at h
      rcases ih accT e h with h | ⟨h1, h2⟩
      · exact Or.inl h
      · exact Or.inr ⟨List.mem_cons_of_mem _ h1, h2⟩
    | false =>
      rw [recordTypes, if_neg (by simp [hk])] at h
      rcases ih _ e h with h | ⟨h1, h2⟩
      · rcases List.mem_append.mp h with h | h
        · exact Or.inl h
        · rcases List.mem_singleton.mp h with rfl
          exact Or.inr ⟨List.mem_cons_self _ _, rfl⟩
      · exact Or.inr ⟨List.mem_cons_of_mem _ h1, h2⟩

theorem recordTypes_keys_iff :
    ∀ (ts : List TypeSym) (accT : List (String × TypeSym)) (k : String),
      k ∈ (recordTypes ts accT).map Prod.fst ↔
        k ∈ accT.map Prod.fst ∨ k ∈ ts.map typeKey := by
  intro ts
  induction ts with
  | nil => intro accT k; simp [recordTypes]
  | cons t rest ih =>
    intro accT k
    cases hk : lookupKey accT (typeKey t) with
    | true =>
      rw [recordTypes, if_pos hk, ih]
      have ht : typeKey t ∈ accT.map Prod.fst := (lookupKey_iff _ _).mp hk
      simp only [List.map_cons, List.mem_cons]
      constructor
      · rintro (h | h)
        · exact Or.inl h
        · exact Or.inr (Or.inr h)
      · rintro (h | rfl | h)
        · exact Or.inl h
        · exact Or.inl ht
        · exact Or.inr h
    | false =>
      rw [recordTypes, if_neg (by simp [hk]), ih]
      simp only [List.map_append, List.map_cons, List.mem_append,
        List.mem_cons, List.map_nil, List.not_mem_nil, or_false]
      tauto

theorem recordTypes_keys_nodup :
    ∀ (ts : List TypeSym) (accT : List (String × TypeSym)),
      (accT.map Prod.fst).Nodup →
      ((recordTypes ts accT).map Prod.fst).Nodup := by
  intro ts
  induction ts with
  | nil => intro accT h; exact h
  | cons t rest ih =>
    intro accT h
    cases hk : lookupKey accT (typeKey t) with
    | true =>
      rw [recordTypes, if_pos hk]
      exact ih accT h
    | false =>
      rw [recordTypes, if_neg (by simp [hk])]
      refine ih _ ?_
      have ht : typeKey t ∉ accT.map Prod.fst := by
        intro hmem
        rw [← lookupKey_iff accT (typeKey t)] at hmem
        simp [hk] at hmem
      simp only [List.map_append, List.map_cons, List.map_nil]
      exact List.Nodup.append h (List.nodup_singleton _)
        (fun a ha hb => ht (by rwa [List.mem_singleton.mp hb] at ha))

theorem enqueueStep_no_expand (pkgs : List Package) (pp : List String)
    {md td : Int} (f : FuncSym) (q : List AnalysisTask) (h : ¬ td < md) :
    enqueueStep pkgs pp md td f q = q := by
  rw [enqueueStep, if_neg]
  simp [h]

theorem expandFuncs_no_expand (pkgs : List Package) (pp : List String)
    {md td : Int} (h : ¬ td < md) :
    ∀ (fs : List FuncSym) (accF : List (String × FuncSym))
      (q : List AnalysisTask),
      (expandFuncs pkgs pp md td fs accF q).2 = q := by
  intro fs
  induction fs with
  | nil => intro accF q; rfl
  | cons f rest ih =>
    intro accF q
    cases hk : lookupKey accF f.fullName with
    | true => rw [expandFuncs, if_pos hk]; exact ih accF q
    | false =>
      rw [expandFuncs, if_neg (by simp [hk]),
        enqueueStep_no_expand pkgs pp f q h]
      exact ih _ q

theorem traceLoop_done_inv (pkgs : List Package) (pp : List String) (md : Int) :
    ∀ (fuel : Nat) (queue : List AnalysisTask) (processed : List String)
      (accF : List (String × FuncSym)) (accT : List (String × TypeSym))
      (pr : List String) (accF' : List (String × FuncSym))
      (accT' : List (String × TypeSym)),
      traceLoop pkgs pp md fuel queue processed accF accT = .done pr accF' accT' →
      (accF.map Prod.fst).Nodup → (accT.map Prod.fst).Nodup →
      (∀ e ∈ accF, e.2.pkgPath ∈ pp) → (∀ e ∈ accT, e.2.pkgPath ∈ pp) →
      (accF'.map Prod.fst).Nodup ∧ (accT'.map Prod.fst).Nodup ∧
      (∀ e ∈ accF', e.2.pkgPath ∈ pp) ∧ (∀ e ∈ accT', e.2.pkgPath ∈ pp) := by
  intro fuel
  induction fuel with
  | zero =>
    intro queue processed accF accT pr accF' accT' h h1 h2 h3 h4
    cases queue with
    | nil =>
      simp only [traceLoop, LoopResult.done.injEq] at h
      obtain ⟨rfl, rfl, rfl⟩ := h
      exact ⟨h1, h2, h3, h4⟩
    | cons task rest =>
      simp only [traceLoop] at h
      cases h
  | succ n ih =>
    intro queue processed accF accT pr accF' accT' h h1 h2 h3 h4
    cases queue with
    | nil =>
      simp only [traceLoop, LoopResult.done.injEq] at h
      obtain ⟨rfl, rfl, rfl⟩ := h
      exact ⟨h1, h2, h3, h4⟩
    | cons task rest =>
      simp only [traceLoop] at h
      cases ho : task.target.fn.nameObj with
      | none =>
        rw [ho] at h
        exact ih rest processed accF accT pr accF' accT' h h1 h2 h3 h4
      | some fnObj =>
        rw [ho] at h
        simp only at h
        by_cases hc : processed.contains fnObj.fullName = true
        · rw [if_pos hc] at h
          exact ih rest processed accF accT pr accF' accT' h h1 h2 h3 h4
        · rw [if_neg hc] at h
          cases hb : task.target.fn.body with
          | none => rw [hb] at h; cases h
          | some b =>
            rw [hb] at h
            refine ih _ _ _ _ _ _ _ h ?_ ?_ ?_ ?_
            · exact expandFuncs_keys_nodup pkgs pp md task.depth _ accF rest h1
            · exact recordTypes_keys_nodup _ accT h2
            · intro e he
              rcases expandFuncs_acc_mem pkgs pp md task.depth _ accF rest e he
                with hacc | ⟨hmem, _⟩
              · exact h3 e hacc
              · exact runCollector_calledFuncs_pp pp b e.2 hmem
            · intro e he
              rcases recordTypes_mem _ accT e he with hacc | ⟨hmem, _⟩
              · exact h4 e hacc
              · exact runCollector_referencedTypes_pp pp b e.2 hmem

theorem contains_false_not_mem {l : List String} {k : String}
    (h : l.contains k = false) : k ∉ l := by
  intro hmem
  have hc : l.contains k = true := List.elem_iff.mpr hmem
  rw [hc] at h
  cases h

theorem foldr_max_le {l : List Nat} {a : Nat} (h : a ∈ l) :
    a ≤ l.foldr max 0 := by
  induction l with
  | nil => simp at h
  | cons b rest ih =>
    rcases List.mem_cons.mp h with rfl | h
    · exact le_max_left _ _
    · exact le_trans (ih h) (le_max_right _ _)

theorem taskOK_fn_mem {pkgs : List Package} {t0 : AnalysisTarget}
    {task : AnalysisTask} (hok : TaskOK pkgs t0 task) :
    task.target.fn ∈ universeDecls pkgs t0 := by
  rcases hok with h | h
  · rw [universeDecls, h]; exact List.mem_cons_self _ _
  · exact List.mem_cons_of_mem _ h

theorem key_mem_universe {pkgs : List Package} {t0 : AnalysisTarget}
    {task : AnalysisTask} {fnObj : FuncSym} (hok : TaskOK pkgs t0 task)
    (ho : task.target.fn.nameObj = some fnObj) :
    fnObj.fullName ∈ keyUniverse pkgs t0 := by
  rw [keyUniverse, List.mem_toFinset, List.mem_filterMap]
  exact ⟨task.target.fn, taskOK_fn_mem hok, by rw [ho]; rfl⟩

theorem bodyLen_le_enqBound {pkgs : List Package} {t0 : AnalysisTarget}
    {task : AnalysisTask} {b : List (Option Obj)} (hok : TaskOK pkgs t0 task)
    (hb : task.target.fn.body = some b) : b.length ≤ enqBound pkgs t0 := by
  have hlen : bodyLen task.target.fn = b.length := by rw [bodyLen, hb]; rfl
  rw [enqBound, ← hlen]
  exact foldr_max_le (List.mem_map_of_mem bodyLen (taskOK_fn_mem hok))

theorem visited_card_step {U : Finset String} {processed : List String}
    {k : String} (hU : k ∈ U) (hp : k ∉ processed) :
    (U \ (processed ++ [k]).toFinset).card + 1 ≤
      (U \ processed.toFinset).card := by
  have hmem : k ∈ U \ processed.toFinset :=
    Finset.mem_sdiff.mpr ⟨hU, fun hx => hp (List.mem_toFinset.mp hx)⟩
  have heq : U \ (processed ++ [k]).toFinset =
      (U \ processed.toFinset).erase k := by
    ext x
    simp only [Finset.mem_sdiff, List.toFinset_append, Finset.mem_union,
      List.mem_toFinset, List.toFinset_cons, List.toFinset_nil,
      insert_emptyc_eq, Finset.mem_insert, Finset.mem_singleton,
      Finset.mem_erase]
    tauto
  rw [heq, Finset.card_erase_of_mem hmem]
  have hpos : 0 < (U \ processed.toFinset).card :=
    Finset.card_pos.mpr ⟨k, hmem⟩
  omega

theorem traceLoop_no_exhaustion (pkgs : List Package) (pp : List String)
    (t0 : AnalysisTarget) (md : Int) :
    ∀ (fuel : Nat) (queue : List AnalysisTask) (processed : List String)
      (accF : List (String × FuncSym)) (accT : List (String × TypeSym)),
      (∀ task ∈ queue, TaskOK pkgs t0 task) →
      loopMeasure pkgs t0 processed queue ≤ fuel →
      traceLoop pkgs pp md fuel queue processed accF accT ≠ .outOfFuel := by
  intro fuel
  induction fuel with
  | zero =>
    intro queue processed accF accT hok hm
    cases queue with
    | nil => simp [traceLoop]
    | cons task rest =>
      exfalso
      have h1 : 1 ≤ (task :: rest).length := by simp
      have h2 : 1 ≤ loopMeasure pkgs t0 processed (task :: rest) :=
        le_trans h1 (Nat.le_add_left _ _)
      omega
  | succ n ih =>
    intro queue processed accF accT hok hm heq
    cases queue with
    | nil => simp only [traceLoop] at heq; cases heq
    | cons task rest =>
      have hmrest : loopMeasure pkgs t0 processed rest + 1 =
          loopMeasure pkgs t0 processed (task :: rest) := by
        simp only [loopMeasure, List.length_cons]
        omega
      have hokrest : ∀ tq ∈ rest, TaskOK pkgs t0 tq :=
        fun tq htq => hok tq (List.mem_cons_of_mem _ htq)
      simp only [traceLoop] at heq
      cases ho : task.target.fn.nameObj with
      | none =>
        rw [ho] at heq
        exact ih rest processed accF accT hokrest (by omega) heq
      | some fnObj =>
        rw [ho] at heq
        simp only at heq
        by_cases hc : processed.contains fnObj.fullName = true
        · rw [if_pos hc] at heq
          exact ih rest processed accF accT hokrest (by omega) heq
        · rw [if_neg hc] at heq
          cases hb : task.target.fn.body with
          | none => rw [hb] at heq; cases heq
          | some b =>
            rw [hb] at heq
            have hoktask : TaskOK pkgs t0 task :=
              hok task (List.mem_cons_self _ _)
            have hnm : fnObj.fullName ∉ processed := by simpa using hc
            refine ih _ _ _ _ ?_ ?_ heq
            · intro tq htq
              rcases expandFuncs_queue_mem pkgs pp md task.depth _ accF rest
                tq htq with hq | hd
              · exact hokrest tq hq
              · exact Or.inr hd
            · -- the measure strictly dropped: one fresh key was visited
              have hqlen := expandFuncs_queue_length pkgs pp md task.depth
                (runCollector pp b).calledFuncs accF rest
              have hcol := runCollector_calledFuncs_length pp b
              have hbl := bodyLen_le_enqBound hoktask hb
              have hcard := visited_card_step (key_mem_universe hoktask ho) hnm
              have hmul : ((keyUniverse pkgs t0 \
                  (processed ++ [fnObj.fullName]).toFinset).card + 1) *
                    (enqBound pkgs t0 + 1) ≤
                  (keyUniverse pkgs t0 \ processed.toFinset).card *
                    (enqBound pkgs t0 + 1) :=
                Nat.mul_le_mul_right _ hcard
              have hdist : ((keyUniverse pkgs t0 \
                  (processed ++ [fnObj.fullName]).toFinset).card + 1) *
                    (enqBound pkgs t0 + 1) =
                  (keyUniverse pkgs t0 \
                    (processed ++ [fnObj.fullName]).toFinset).card *
                      (enqBound pkgs t0 + 1) + (enqBound pkgs t0 + 1) := by
                ring
              simp only [loopMeasure, List.length_cons] at hm ⊢
              omega

theorem performRecursiveAnalysisE_no_error (t : AnalysisTarget) (d : Int)
    (pkgs : List Package) (fuel : Nat) (e : String) :
    performRecursiveAnalysisE t d pkgs fuel ≠ some (.error e) := by
  rw [performRecursiveAnalysisE]
  cases performRecursiveAnalysis t d pkgs fuel <;> simp

/-! ### Claim theorems -/

/-- C3. With `maxDepth = 0` the traversal classifies only the initial
target's own body and never expands any callee: the callable result keys are
exactly the fully qualified names of the direct callable references of the
body, the type result keys are exactly the qualified keys of its direct type
references (each recorded once), and nothing reachable only through a
callee's body appears. -/
theorem c3_depth_zero_exact (pkgs : List Package) (t : AnalysisTarget)
    (fnObj : FuncSym) (b : List (Option Obj)) (fuel : Nat)
    (hobj : t.fn.nameObj = some fnObj) (hbody : t.fn.body = some b)
    (hfuel : 1 ≤ fuel) :
    ∃ pr accF accT,
      performRecursiveAnalysis t 0 pkgs fuel = .done pr accF accT ∧
      (∀ k, k ∈ accF.map Prod.fst ↔
        k ∈ (runCollector (projectPackagesOf pkgs) b).calledFuncs.map
          FuncSym.fullName) ∧
      (accF.map Prod.fst).Nodup ∧
      (∀ k, k ∈ accT.map Prod.fst ↔
        k ∈ (runCollector (projectPackagesOf pkgs) b).referencedTypes.map
          typeKey) ∧
      (accT.map Prod.fst).Nodup := by
  obtain ⟨n, rfl⟩ : ∃ n, fuel = n + 1 := ⟨fuel - 1, by omega⟩
  refine ⟨[fnObj.fullName],
    (expandFuncs pkgs (projectPackagesOf pkgs) 0 0
      (runCollector (projectPackagesOf pkgs) b).calledFuncs [] []).1,
    recordTypes (runCollector (projectPackagesOf pkgs) b).referencedTypes [],
    ?_, ?_, ?_, ?_, ?_⟩
  · rw [performRecursiveAnalysis]
    simp only [traceLoop, hobj, hbody]
    rw [expandFuncs_no_expand pkgs (projectPackagesOf pkgs) (by omega)]
    simp [traceLoop]
  · intro k
    rw [expandFuncs_keys_iff]
    simp
  · exact expandFuncs_keys_nodup pkgs (projectPackagesOf pkgs) 0 0 _ [] []
      (by simp)
  · intro k
    rw [recordTypes_keys_iff]
    simp
  · exact recordTypes_keys_nodup _ [] (by simp)

/-- C3, witness: on the scenario project, `maxDepth = 0` yields exactly the
direct references of `A`'s body. -/
theorem c3_depth_zero_exact_witness :
    ∃ pr accF accT,
      performRecursiveAnalysis scenTarget 0 scenPkgs 5 = .done pr accF accT ∧
      (∀ k, k ∈ accF.map Prod.fst ↔
        k ∈ (runCollector (projectPackagesOf scenPkgs)
          [some (.funcObj scenB), some (.funcObj scenC),
            some (.typeObj scenT)]).calledFuncs.map FuncSym.fullName) ∧
      (accF.map Prod.fst).Nodup ∧
      (∀ k, k ∈ accT.map Prod.fst ↔
        k ∈ (runCollector (projectPackagesOf scenPkgs)
          [some (.funcObj scenB), some (.funcObj scenC),
            some (.typeObj scenT)]).referencedTypes.map typeKey) ∧
      (accT.map Prod.fst).Nodup :=
  c3_depth_zero_exact scenPkgs scenTarget scenA
    [some (.funcObj scenB), some (.funcObj scenC), some (.typeObj scenT)]
    5 rfl rfl (by omega)

/-- C5. Scope filtering: in every completed traversal, every symbol recorded
in either result set has its owning package path in the project package set
`projectPackagesOf pkgs` — a symbol owned outside the project is never
recorded (and hence never expanded, since expansion only applies to
first-recorded callables). -/
theorem c5_scope_filtering (pkgs : List Package) (t : AnalysisTarget)
    (d : Int) (fuel : Nat) (pr : List String)
    (accF : List (String × FuncSym)) (accT : List (String × TypeSym))
    (h : performRecursiveAnalysis t d pkgs fuel = .done pr accF accT) :
    (∀ e ∈ accF, e.2.pkgPath ∈ projectPackagesOf pkgs) ∧
    (∀ e ∈ accT, e.2.pkgPath ∈ projectPackagesOf pkgs) := by
  have hinv := traceLoop_done_inv pkgs (projectPackagesOf pkgs) d fuel
    [⟨t, 0⟩] [] [] [] pr accF accT h (by simp) (by simp) (by simp) (by simp)
  exact ⟨hinv.2.2.1, hinv.2.2.2⟩

/-- C5, witness: on the scenario project, every recorded symbol is owned by
package `p`. -/
theorem c5_scope_filtering_witness :
    (∀ e ∈ [("p.B", scenB), ("p.C", scenC), ("p.D", scenD)],
      (e : String × FuncSym).2.pkgPath ∈ projectPackagesOf scenPkgs) ∧
    (∀ e ∈ [("p.T", scenT), ("p.U", scenU)],
      (e : String × TypeSym).2.pkgPath ∈ projectPackagesOf scenPkgs) :=
  c5_scope_filtering scenPkgs scenTarget 1 10 ["p.A", "p.B", "p.C"]
    [("p.B", scenB), ("p.C", scenC), ("p.D", scenD)]
    [("p.T", scenT), ("p.U", scenU)] rfl

/-- C9. Types are traversal leaves: in every completed traversal the type
result map holds at most one entry per fully qualified name; and on a
project where type `S` is referenced from two different bodies, `S` is
recorded exactly once while the visited (expanded) set holds only callables
— the type's key never enters it, types are never enqueued as tasks. -/
theorem c9_types_are_leaves :
    (∀ (pkgs : List Package) (t : AnalysisTarget) (d : Int) (fuel : Nat)
      (pr : List String) (accF : List (String × FuncSym))
      (accT : List (String × TypeSym)),
      performRecursiveAnalysis t d pkgs fuel = .done pr accF accT →
      (accT.map Prod.fst).Nodup) ∧
    (performRecursiveAnalysis lvTarget 3 lvPkgs 10 =
      .done ["q.A", "q.B"] [("q.B", lvB)] [("q.S", lvS)] ∧
    ("q.S" : String) ∉ ["q.A", "q.B"]) := by
  refine ⟨?_, rfl, by decide⟩
  intro pkgs t d fuel pr accF accT h
  exact (traceLoop_done_inv pkgs (projectPackagesOf pkgs) d fuel
    [⟨t, 0⟩] [] [] [] pr accF accT h (by simp) (by simp) (by simp)
    (by simp)).2.1

/-- C9, witness: the type result of the leaves project has no duplicate
keys. -/
theorem c9_types_are_leaves_witness :
    (([("q.S", lvS)] : List (String × TypeSym)).map Prod.fst).Nodup :=
  c9_types_are_leaves.1 lvPkgs lvTarget 3 10 ["q.A", "q.B"]
    [("q.B", lvB)] [("q.S", lvS)] rfl

/-- C2, amended. The traversal's result map contents are a pure function of
target, depth and project, deduplicated by fully qualified name (no
duplicate keys); any two Go-map emissions of the callable map of one
completed run are permutations of each other — the *set* of names is
deterministic across runs — but the emission order itself is unspecified,
so the ordered lists are not guaranteed to be insertion-ordered or
run-to-run identical. -/
theorem c2_ordered_output_amended (pkgs : List Package) (t : AnalysisTarget)
    (d : Int) (fuel : Nat) (pr : List String)
    (accF : List (String × FuncSym)) (accT : List (String × TypeSym))
    (l1 l2 : List (String × FuncSym))
    (h : performRecursiveAnalysis t d pkgs fuel = .done pr accF accT)
    (h1 : goMapRange accF l1) (h2 : goMapRange accF l2) :
    (l1.map Prod.fst).Perm (l2.map Prod.fst) ∧
    (accF.map Prod.fst).Nodup := by
  refine ⟨List.Perm.map Prod.fst (h1.trans h2.symm), ?_⟩
  exact (traceLoop_done_inv pkgs (projectPackagesOf pkgs) d fuel
    [⟨t, 0⟩] [] [] [] pr accF accT h (by simp) (by simp) (by simp)
    (by simp)).1

/-- C2, amended, witness: both emissions of the order project's run list the
same name set. -/
theorem c2_ordered_output_amended_witness :
    ((ordIterBC.map Prod.fst).Perm (ordIterCB.map Prod.fst)) ∧
    (ordAcc.map Prod.fst).Nodup :=
  c2_ordered_output_amended ordPkgs ordTarget 0 5 ["p2.Main"] ordAcc []
    ordIterBC ordIterCB rfl (List.Perm.refl _) (List.Perm.swap _ _ _)

/-- C10. The core entry points never surface an error: whenever `Analyze`,
`ExtractCalledFuncs` or `ExtractTypes` runs to completion, the returned
error is nil — `performRecursiveAnalysis` has no failing return path, and
every per-symbol failure is absorbed into the report text or silently
skipped. -/
theorem c10_nil_error (pkgs : List Package) (t : AnalysisTarget)
    (file : String) (d : Int) (fuel : Nat)
    (iterF1 : List (String × FuncSym)) (iterT1 : List (String × TypeSym))
    (iterF2 : List (String × FuncSym)) (iterT2 : List (String × TypeSym))
    (iterF : List (String × FuncSym)) (iterT : List (String × TypeSym)) :
    (∀ r, Analyze t file d pkgs fuel iterF1 iterT1 iterF2 iterT2 = some r →
      ∃ s, r = .ok s) ∧
    (∀ r, ExtractCalledFuncs t d pkgs fuel iterF = some r → ∃ l, r = .ok l) ∧
    (∀ r, ExtractTypes t d pkgs fuel iterT = some r → ∃ l, r = .ok l) := by
  refine ⟨?_, ?_, ?_⟩ <;> intro r hr
  · rw [Analyze] at hr
    cases hE : performRecursiveAnalysisE t d pkgs fuel with
    | none => rw [hE] at hr; cases hr
    | some res =>
      cases res with
      | error e => exact absurd hE (performRecursiveAnalysisE_no_error _ _ _ _ _)
      | ok res2 =>
        obtain ⟨accF, accT⟩ := res2
        rw [hE] at hr
        simp only at hr
        cases hc : analyzeReportChunks pkgs t file d accF accT
            iterF1 iterT1 iterF2 iterT2 with
        | none => rw [hc] at hr; cases hr
        | some chunks =>
          rw [hc] at hr
          exact ⟨String.join chunks, (Option.some.inj hr).symm⟩
  · rw [ExtractCalledFuncs] at hr
    cases hE : performRecursiveAnalysisE t d pkgs fuel with
    | none => rw [hE] at hr; cases hr
    | some res =>
      cases res with
      | error e => exact absurd hE (performRecursiveAnalysisE_no_error _ _ _ _ _)
      | ok res2 =>
        rw [hE] at hr
        exact ⟨iterF.map Prod.fst, (Option.some.inj hr).symm⟩
  · rw [ExtractTypes] at hr
    cases hE : performRecursiveAnalysisE t d pkgs fuel with
    | none => rw [hE] at hr; cases hr
    | some res =>
      cases res with
      | error e => exact absurd hE (performRecursiveAnalysisE_no_error _ _ _ _ _)
      | ok res2 =>
        rw [hE] at hr
        exact ⟨iterT.map Prod.fst, (Option.some.inj hr).symm⟩

/-- C10, witness: a completed `ExtractCalledFuncs` run returned `Except.ok`. -/
theorem c10_nil_error_witness :
    ∃ l, (Except.ok ["p2.B", "p2.C"] : Except String (List String)) =
      Except.ok l :=
  (c10_nil_error ordPkgs ordTarget "" 0 5 [] [] [] [] ordIterBC []).2.1
    (Except.ok ["p2.B", "p2.C"]) rfl

/-- C4. Termination and cycle safety: for every finite project, every target
and every depth bound there is a finite iteration count within which the BFS
loop finishes (it never runs out of fuel at that bound), because the visited
set grows monotonically inside the finite key universe and a popped task
whose callable identity is already visited is discarded.  Concretely, on the
2-cycle `A → B → A` at depth 5, the traversal completes with `A` expanded
exactly once (one visited-set entry) and appearing exactly once in the
callable result set. -/
theorem c4_termination_cycle_safe :
    (∀ (pkgs : List Package) (t : AnalysisTarget) (d : Int), ∃ fuel : Nat,
      performRecursiveAnalysis t d pkgs fuel ≠ .outOfFuel) ∧
    (performRecursiveAnalysis cycTarget 5 cycPkgs 10 =
      .done ["c.A", "c.B"] [("c.B", cycB), ("c.A", cycA)] [] ∧
    (["c.A", "c.B"] : List String).Nodup ∧
    (([("c.B", cycB), ("c.A", cycA)] : List (String × FuncSym)).map
      Prod.fst).Nodup) := by
  refine ⟨?_, rfl, by decide, by decide⟩
  intro pkgs t d
  refine ⟨loopMeasure pkgs t [] [⟨t, 0⟩], ?_⟩
  exact traceLoop_no_exhaustion pkgs (projectPackagesOf pkgs) t d _
    [⟨t, 0⟩] [] [] []
    (fun task htask => by
      rcases List.mem_singleton.mp htask with rfl
      exact Or.inl rfl)
    (le_refl _)

/-- C1, counterexample. On the spec's own Scenario 1/2 project (`A` calls
`B`, `C` and references `T`; `B` calls `D` and references `U`), running the
traversal with `maxDepth = 1` yields called = `{B, C, D}` — `D` is present,
not absent — and types = `{T, U}`, not `{T}`: a callee enqueued at the depth
bound is still classified, so its references are recorded. -/
theorem c1_depth_bound_cex :
    calledKeys (performRecursiveAnalysis scenTarget 1 scenPkgs 10) =
      ["p.B", "p.C", "p.D"] ∧
    typeResultKeys (performRecursiveAnalysis scenTarget 1 scenPkgs 10) =
      ["p.T", "p.U"] ∧
    "p.D" ∈ calledKeys (performRecursiveAnalysis scenTarget 1 scenPkgs 10) ∧
    "p.U" ∈ typeResultKeys (performRecursiveAnalysis scenTarget 1 scenPkgs 10) := by
  refine ⟨rfl, rfl, ?_, ?_⟩ <;> decide

/-- C1, amended. On the Scenario 1/2 project, `maxDepth = 1` and
`maxDepth = 2` both yield called = `{B, C, D}` and types = `{T, U}`, in
discovery order: recording is unconditional on first discovery, the depth
bound only gates enqueueing, so the references of depth-1 bodies (`D`, `U`)
are already recorded at `maxDepth = 1`. -/
theorem c1_depth_bound_amended :
    calledKeys (performRecursiveAnalysis scenTarget 1 scenPkgs 10) =
      ["p.B", "p.C", "p.D"] ∧
    typeResultKeys (performRecursiveAnalysis scenTarget 1 scenPkgs 10) =
      ["p.T", "p.U"] ∧
    calledKeys (performRecursiveAnalysis scenTarget 2 scenPkgs 10) =
      ["p.B", "p.C", "p.D"] ∧
    typeResultKeys (performRecursiveAnalysis scenTarget 2 scenPkgs 10) =
      ["p.T", "p.U"] :=
  ⟨rfl, rfl, rfl, rfl⟩

/-- C2, counterexample. The result maps are Go maps: any permutation of the
stored entries is a possible `range` order.  On a project whose target calls
`B` then `C`, both insertion order and its reverse are valid emissions, and
`ExtractCalledFuncs` returns different ordered name lists for the two — so
the output order is not the insertion order and two runs of the traversal
are not guaranteed to yield identical ordered name lists. -/
theorem c2_ordered_output_cex :
    performRecursiveAnalysis ordTarget 0 ordPkgs 5 =
      .done ["p2.Main"] ordAcc [] ∧
    goMapRange ordAcc ordIterBC ∧
    goMapRange ordAcc ordIterCB ∧
    ExtractCalledFuncs ordTarget 0 ordPkgs 5 ordIterBC =
      some (.ok ["p2.B", "p2.C"]) ∧
    ExtractCalledFuncs ordTarget 0 ordPkgs 5 ordIterCB =
      some (.ok ["p2.C", "p2.B"]) ∧
    (["p2.C", "p2.B"] : List String) ≠ ["p2.B", "p2.C"] :=
  ⟨rfl, List.Perm.refl _, List.Perm.swap _ _ _, rfl, rfl, by decide⟩

/-- C7, code bug. A popped task whose target declaration has no body — a
forward-declared (assembly-backed) function, `Body == nil` — does not
contribute zero candidates: `ast.Walk` is handed the typed-nil
`*ast.BlockStmt`, `resultCollector.Visit`'s `node == nil` test does not fire
on a non-nil interface holding a nil pointer, and `Walk` dereferences
`n.List`, a runtime panic. -/
theorem c7_nil_body_panics :
    performRecursiveAnalysis extTarget 0 extPkgs 10 = .panicked ∧
    extTarget.fn.body = none :=
  ⟨rfl, rfl⟩

/-- C8. Two functions both locally named `F`, declared in packages
`example/a` and `example/b`, are tracked under the distinct fully qualified
identities `example/a.F` and `example/b.F`: each gets its own visited-set
entry and its own result-map entry, and neither is dropped or merged.  The
same holds for the same-named types `example/a.X` and `example/b.X`. -/
theorem c8_name_collision_independent :
    performRecursiveAnalysis colTarget 1 colPkgs 10 =
      .done ["example/a.Main", "example/a.F", "example/b.F"]
        [("example/a.F", colFa), ("example/b.F", colFb)]
        [("example/a.X", colXa), ("example/b.X", colXb)] ∧
    colDeclFa.name = colDeclFb.name ∧
    ("example/a.F" : String) ≠ "example/b.F" ∧
    ("example/a.X" : String) ≠ "example/b.X" :=
  ⟨rfl, rfl, by decide, by decide⟩

/-- C6, counterexample. On a project where the discovered callable
`q.Ghost`'s declaration cannot be located (its package is loaded but holds
no syntax), the `Analyze` report still lists `q.Ghost` in the summary and
the call completes — but the dependency-snippet section contains no block
for `q.Ghost` at all: the failed snippet retrieval skips the block instead
of writing an explanatory placeholder. -/
theorem c6_degradation_cex :
    AnalyzeChunks degTarget "root.go" 2 degPkgs 10
        [("q.Ghost", ghost)] [] [("q.Ghost", ghost)] [] =
      some
        ["Analysis for Function: Root (depth=2)\n", "Defined in: root.go\n",
         "\n--- Target Function Source Code ---\n",
         "func Root() { q.Ghost() }\n",
         "\n--- Summary of Dependencies ---\n", "Called Functions/Methods:\n",
         "- q.Ghost\n", "\nReferenced Types:\n", "- None\n",
         "\n--- Code Snippets of Dependencies ---\n"] ∧
    ("\n// Source for: q.Ghost\n" : String) ∉
      ["Analysis for Function: Root (depth=2)\n", "Defined in: root.go\n",
       "\n--- Target Function Source Code ---\n",
       "func Root() { q.Ghost() }\n",
       "\n--- Summary of Dependencies ---\n", "Called Functions/Methods:\n",
       "- q.Ghost\n", "\nReferenced Types:\n", "- None\n",
       "\n--- Code Snippets of Dependencies ---\n"] :=
  ⟨rfl, by decide⟩

/-- C6, amended. A discovered symbol whose declaration cannot be located
still appears by name in the report's summary list, and the overall
`Analyze` call is not aborted — it completes with a nil error — but the
symbol's dependency block is omitted entirely from the snippets section
rather than rendered with an explanatory placeholder (only the *target*
function's own snippet failure produces an inline error comment). -/
theorem c6_degradation_amended :
    (∃ chunks, AnalyzeChunks degTarget "root.go" 2 degPkgs 10
        [("q.Ghost", ghost)] [] [("q.Ghost", ghost)] [] = some chunks ∧
      "- q.Ghost\n" ∈ chunks ∧
      (∀ c ∈ chunks, c ≠ "\n// Source for: q.Ghost\n") ∧
      funcSnippetBlock degPkgs "q.Ghost" ghost = []) ∧
    (∃ s, Analyze degTarget "root.go" 2 degPkgs 10
        [("q.Ghost", ghost)] [] [("q.Ghost", ghost)] [] = some (.ok s)) :=
  ⟨⟨_, rfl, by decide, by decide, rfl⟩, ⟨_, rfl⟩⟩

end GoCallTracer
